import Mathlib

/-!
# Verification of Botan's Montgomery-domain modular arithmetic

A shallow embedding of `src/lib/math/numbertheory/monty.h`
(`Montgomery_Params` and `Montgomery_Int`).  The repository ships only the
interface header; every method body is modelled from the specification
(parameter precomputation, REDC, the Montgomery-value arithmetic surface and
its error contract), with arbitrary-precision integers embedded as `Nat`.
-/

namespace BotanMonty

/-- Modelled from the spec: the error taxonomy of §7 (the bodies that raise
these errors are not in the sources, only the interface is). -/
inductive MontyError where
  | InvalidModulus
  | MismatchedModulus
  | NotInvertible
  | MalformedRepresentation
deriving DecidableEq, Repr

/-- Fuelled binary recursion computing the bit length of `n`
(`fuel ≥ n` suffices for the recursion to bottom out). -/
def bitLenAux : Nat → Nat → Nat
  | 0, _ => 0
  | fuel + 1, n => if n = 0 then 0 else bitLenAux fuel (n / 2) + 1

/-- Modelled from the spec: `bit_length(p)`, the number of bits of `p`
(a query of the external big-integer primitive, §6). -/
def bit_length (n : Nat) : Nat := bitLenAux n n

/-- One Newton–Raphson step for inverting an odd number modulo `m = 2^w`:
`x ↦ x * (2 - p * x) mod m`, computed over `Int` and normalized to `[0, m)`. -/
def newton_step (p m x : Nat) : Nat :=
  (((x : Int) * (2 - (p : Int) * (x : Int))) % ((m : Nat) : Int)).toNat

/-- `k` Newton–Raphson doubling steps starting from the inverse `1` of an odd
number modulo `2`. -/
def monty_inverse_aux (p m : Nat) : Nat → Nat
  | 0 => 1 % m
  | k + 1 => newton_step p m (monty_inverse_aux p m k)

/-- Modelled from the spec: the word-sized modular inverse of `p` modulo
`2^w` via Newton–Raphson doubling (§4.1); `w` steps at full width reach
`2^w` bits of precision since `w ≤ 2^w`. -/
def monty_inverse (p w : Nat) : Nat := monty_inverse_aux p (2 ^ w) w

/-- Modelled from the spec: `Montgomery_Params` (monty.h:95-130).  The fields
`p_words`, `p_dash`, `R1`, `R2`, `R3` that the constructor precomputes are
functions of `p` and `w` below.  `pid` models the C++ object identity of a
`shared_ptr<const Montgomery_Params>`: two separately constructed parameter
objects get distinct `pid`s, so structural equality of this record models
pointer equality of the shared handles. -/
structure Montgomery_Params where
  pid : Nat
  p : Nat
  w : Nat
deriving DecidableEq, Repr

namespace Montgomery_Params

/-- Modelled from the spec: `p_words = ceil(bit_length(p) / word_bits)`. -/
def p_words (P : Montgomery_Params) : Nat := (bit_length P.p + (P.w - 1)) / P.w

/-- `R = 2^(p_words * word_bits)` (never materialized in the C++; explicit here). -/
def R (P : Montgomery_Params) : Nat := 2 ^ (P.p_words * P.w)

/-- Modelled from the spec: `p_dash`, the word-sized inverse of `-p` modulo
`2^word_bits`, i.e. the negation mod `2^w` of the Newton–Raphson inverse of `p`. -/
def p_dash (P : Montgomery_Params) : Nat :=
  (2 ^ P.w - monty_inverse P.p P.w) % 2 ^ P.w

/-- Modelled from the spec: `R1 = R mod p`. -/
def R1 (P : Montgomery_Params) : Nat := P.R % P.p

/-- Modelled from the spec: `R2 = R^2 mod p`. -/
def R2 (P : Montgomery_Params) : Nat := P.R ^ 2 % P.p

/-- Modelled from the spec: `R3 = R^3 mod p`. -/
def R3 (P : Montgomery_Params) : Nat := P.R ^ 3 % P.p

end Montgomery_Params

/-- One REDC word-step (spec §4.1): with `x_word = x mod 2^w`, compute the
multiplier `m = (x_word * p_dash) mod 2^w`, add `m * p` (clearing the low
word) and shift the accumulator down one word. -/
def redc_step (w p pd x : Nat) : Nat :=
  (x + (x % 2 ^ w * pd) % 2 ^ w * p) / 2 ^ w

/-- `k` REDC word-steps. -/
def redc_loop (w p pd : Nat) : Nat → Nat → Nat
  | 0, x => x
  | k + 1, x => redc_loop w p pd k (redc_step w p pd x)

namespace Montgomery_Params

/-- Modelled from the spec: `Montgomery_Params::redc` (monty.h:113) — `p_words`
REDC word-steps, after which the accumulator is `< 2p`, then one conditional
subtraction of `p`. -/
def redc (P : Montgomery_Params) (x : Nat) : Nat :=
  let t := redc_loop P.w P.p P.p_dash P.p_words x
  if P.p ≤ t then t - P.p else t

/-- Modelled from the spec: `Montgomery_Params::mul x y = redc (x * y)`
(monty.h:115). -/
def mul (P : Montgomery_Params) (x y : Nat) : Nat := P.redc (x * y)

/-- Modelled from the spec: `Montgomery_Params::sqr x = redc (x * x)`
(monty.h:119). -/
def sqr (P : Montgomery_Params) (x : Nat) : Nat := P.redc (x * x)

end Montgomery_Params

/-- Modelled from the spec: the multiplicative inverse of `x` modulo `p`
returned by the extended Euclidean algorithm of §4.1, embedded as the least
`y < p` with `x * y ≡ 1 (mod p)` (`none` when no inverse exists). -/
def mod_inverse (p x : Nat) : Option Nat :=
  (List.range p).find? (fun y => (x * y) % p == 1)

namespace Montgomery_Params

/-- Modelled from the spec: `Montgomery_Params::inv_mod_p` (monty.h:121) —
de-Montgomeryize `x` with one REDC pass, invert the logical value mod `p`
(`NotInvertible` when `gcd ≠ 1`, i.e. no inverse exists), and re-enter the
domain by multiplying by `R2` and reducing. -/
def inv_mod_p (P : Montgomery_Params) (x : Nat) : Except MontyError Nat :=
  match mod_inverse P.p (P.redc x) with
  | some y => .ok (P.redc (y * P.R2))
  | none => .error .NotInvertible

end Montgomery_Params

/-- Modelled from the spec: `Montgomery_Int` (monty.h:21-90) — a shared
reference to the parameters plus the stored Montgomery representation `m_v`. -/
structure Montgomery_Int where
  params : Montgomery_Params
  v : Nat
deriving DecidableEq, Repr

namespace Montgomery_Int

/-- Modelled from the spec: the constructor `Montgomery_Int(params, v,
redc_needed)` (monty.h:32) — with `redc_needed` the value is moved into the
domain by the `×R2` + reduce transform; otherwise the caller asserts `v` is
already a valid representation, rejected as `MalformedRepresentation` when it
violates `0 ≤ v < p`. -/
def make (P : Montgomery_Params) (v : Nat) (redc_needed : Bool) :
    Except MontyError Montgomery_Int :=
  if redc_needed then .ok ⟨P, P.mul v P.R2⟩
  else if v < P.p then .ok ⟨P, v⟩ else .error .MalformedRepresentation

/-- Domain entry: the `redc_needed = true` branch of the constructor. -/
def enter (P : Montgomery_Params) (x : Nat) : Montgomery_Int := ⟨P, P.mul x P.R2⟩

/-- Modelled from the spec: `Montgomery_Int::value` (monty.h:50) — exits the
domain with one REDC pass on the stored representation. -/
def value (a : Montgomery_Int) : Nat := a.params.redc a.v

/-- Modelled from the spec: `operator==` (monty.h:36) compares the raw stored
representations. -/
def eqb (a b : Montgomery_Int) : Bool := a.v == b.v

/-- `operator!=` (monty.h:37): `m_v != other.m_v`, consulting only `m_v`. -/
def neqb (a b : Montgomery_Int) : Bool := a.v != b.v

/-- Modelled from the spec: `is_one` compares the representation to `R1`. -/
def is_one (a : Montgomery_Int) : Bool := a.v == a.params.R1

/-- Modelled from the spec: `is_zero` compares the representation to `0`. -/
def is_zero (a : Montgomery_Int) : Bool := a.v == 0

/-- Modelled from the spec: `fix_size` (monty.h:45) re-pads the stored words
to exactly `p_words`; padding is not observable on the `Nat` embedding of the
big integer, so the numeric value is unchanged. -/
def fix_size (a : Montgomery_Int) : Montgomery_Int := ⟨a.params, a.v⟩

/-- Modelled from the spec: `operator+` (monty.h:57) — representation-level
modular addition, one conditional subtraction re-canonicalizes; requires both
operands to reference the same parameters instance. -/
def add (a b : Montgomery_Int) : Except MontyError Montgomery_Int :=
  if a.params = b.params then
    .ok ⟨a.params, if a.params.p ≤ a.v + b.v then a.v + b.v - a.params.p else a.v + b.v⟩
  else .error .MismatchedModulus

/-- Modelled from the spec: `operator-` (monty.h:59) — representation-level
modular subtraction, one conditional addition of `p` re-canonicalizes;
requires both operands to reference the same parameters instance. -/
def sub (a b : Montgomery_Int) : Except MontyError Montgomery_Int :=
  if a.params = b.params then
    .ok ⟨a.params, if b.v ≤ a.v then a.v - b.v else a.v + a.params.p - b.v⟩
  else .error .MismatchedModulus

/-- Modelled from the spec: `operator*` (monty.h:65) — delegates to
`Montgomery_Params::mul` on the stored representations; requires both
operands to reference the same parameters instance. -/
def mul (a b : Montgomery_Int) : Except MontyError Montgomery_Int :=
  if a.params = b.params then .ok ⟨a.params, a.params.mul a.v b.v⟩
  else .error .MismatchedModulus

/-- Modelled from the spec: `square` (monty.h:71) delegates to
`Montgomery_Params::sqr`. -/
def square (a : Montgomery_Int) : Montgomery_Int := ⟨a.params, a.params.sqr a.v⟩

/-- Modelled from the spec: `multiplicative_inverse` (monty.h:75) delegates to
`Montgomery_Params::inv_mod_p` on the stored representation. -/
def multiplicative_inverse (a : Montgomery_Int) : Except MontyError Montgomery_Int :=
  (a.params.inv_mod_p a.v).map (fun y => ⟨a.params, y⟩)

/-- Modelled from the spec: `additive_inverse` (monty.h:77) — `p - v`, or zero
when `v` is zero. -/
def additive_inverse (a : Montgomery_Int) : Montgomery_Int :=
  ⟨a.params, if a.v = 0 then 0 else a.params.p - a.v⟩

/-- Modelled from the spec: `mul_by_2` (monty.h:79) — shift-and-add small
multiple of the raw representation followed by reduction mod `p`. -/
def mul_by_2 (a : Montgomery_Int) : Montgomery_Int := ⟨a.params, 2 * a.v % a.params.p⟩

/-- Modelled from the spec: `mul_by_3` (monty.h:81). -/
def mul_by_3 (a : Montgomery_Int) : Montgomery_Int := ⟨a.params, 3 * a.v % a.params.p⟩

/-- Modelled from the spec: `mul_by_4` (monty.h:83). -/
def mul_by_4 (a : Montgomery_Int) : Montgomery_Int := ⟨a.params, 4 * a.v % a.params.p⟩

/-- Modelled from the spec: `mul_by_8` (monty.h:85). -/
def mul_by_8 (a : Montgomery_Int) : Montgomery_Int := ⟨a.params, 8 * a.v % a.params.p⟩

/-- The representation invariant of §3: the stored value is canonical
(`0 ≤ v < p`) and fits in exactly `p_words` zero-padded words
(`v < R = 2^(p_words * word_bits)`). -/
def canonical (a : Montgomery_Int) : Prop := a.v < a.params.p ∧ a.v < a.params.R

end Montgomery_Int

/-! ## Basic facts about the precomputed parameters -/

theorem bitLenAux_lt : ∀ fuel n, n ≤ fuel → n < 2 ^ bitLenAux fuel n := by
  intro fuel
  induction fuel with
  | zero => intro n h; simp [bitLenAux]; omega
  | succ f ih =>
      intro n h
      by_cases hn : n = 0
      · subst hn; simp [bitLenAux]
      · rw [bitLenAux, if_neg hn]
        have h2 : n / 2 < 2 ^ bitLenAux f (n / 2) := ih (n / 2) (by omega)
        have h3 : 2 ^ (bitLenAux f (n / 2) + 1) = 2 * 2 ^ bitLenAux f (n / 2) := by
          rw [pow_succ]; ring
        omega

theorem bit_length_lt (n : Nat) : n < 2 ^ bit_length n := bitLenAux_lt n n le_rfl

namespace Montgomery_Params

theorem p_lt_R (P : Montgomery_Params) (hw : 0 < P.w) : P.p < P.R := by
  have h1 : P.p < 2 ^ bit_length P.p := bit_length_lt P.p
  have key : bit_length P.p ≤ P.p_words * P.w := by
    unfold p_words
    have hd := Nat.div_add_mod' (bit_length P.p + (P.w - 1)) P.w
    have hm : (bit_length P.p + (P.w - 1)) % P.w < P.w := Nat.mod_lt _ hw
    omega
  exact lt_of_lt_of_le h1 (Nat.pow_le_pow_right (by omega) key)

theorem R_pos (P : Montgomery_Params) : 0 < P.R := Nat.pos_pow_of_pos _ (by omega)

theorem R1_lt (P : Montgomery_Params) (hp : 0 < P.p) : P.R1 < P.p := Nat.mod_lt _ hp

theorem R2_lt (P : Montgomery_Params) (hp : 0 < P.p) : P.R2 < P.p := Nat.mod_lt _ hp

end Montgomery_Params

/-! ## Correctness of the Newton–Raphson inverse and `p_dash` -/

theorem monty_inverse_aux_lt (p m : Nat) (hm : 1 < m) : ∀ k, monty_inverse_aux p m k < m := by
  intro k
  cases k with
  | zero => exact Nat.mod_lt _ (by omega)
  | succ k =>
      show newton_step p m (monty_inverse_aux p m k) < m
      unfold newton_step
      have hm0 : (0 : Int) < (m : Int) := by exact_mod_cast (by omega : 0 < m)
      have h1 := Int.emod_lt_of_pos ((monty_inverse_aux p m k : Int) *
        (2 - (p : Int) * (monty_inverse_aux p m k : Int))) hm0
      omega

theorem monty_inverse_aux_invariant (p w : Nat) (hodd : Odd p) (hw : 0 < w) :
    ∀ k, ((2 ^ min (2 ^ k) w : Nat) : Int) ∣
      (p : Int) * (monty_inverse_aux p (2 ^ w) k : Int) - 1 := by
  intro k
  induction k with
  | zero =>
      have hmin : min (2 ^ 0) w = 1 := by simp; omega
      rw [hmin]
      have h1 : monty_inverse_aux p (2 ^ w) 0 = 1 := by
        show 1 % 2 ^ w = 1
        apply Nat.mod_eq_of_lt
        have : 2 ^ 1 ≤ 2 ^ w := Nat.pow_le_pow_right (by omega) hw
        omega
      rw [h1]
      obtain ⟨m, hm⟩ := hodd
      push_cast [hm]
      ring_nf
      exact ⟨m, by ring⟩
  | succ k ih =>
      set x : Nat := monty_inverse_aux p (2 ^ w) k with hx
      set j : Nat := min (2 ^ k) w with hj
      have hstep : monty_inverse_aux p (2 ^ w) (k + 1) = newton_step p (2 ^ w) x := rfl
      set t : Int := (x : Int) * (2 - (p : Int) * (x : Int)) with ht
      have hN : (0 : Int) < ((2 ^ w : Nat) : Int) := by positivity
      have hcast : (monty_inverse_aux p (2 ^ w) (k + 1) : Int) = t % ((2 ^ w : Nat) : Int) := by
        rw [hstep]
        unfold newton_step
        rw [Int.toNat_of_nonneg (Int.emod_nonneg _ (by omega))]
      -- the value after the step differs from `t` by a multiple of `2 ^ w`
      have hdvd_adjust : ((2 ^ w : Nat) : Int) ∣
          (monty_inverse_aux p (2 ^ w) (k + 1) : Int) - t := by
        rw [hcast]
        refine ⟨-(t / ((2 ^ w : Nat) : Int)), ?_⟩
        have h := Int.ediv_add_emod t ((2 ^ w : Nat) : Int)
        linarith
      -- Newton doubling: `p * t - 1 = -(p * x - 1) ^ 2`
      have halg : (p : Int) * t - 1 = -(((p : Int) * (x : Int) - 1) ^ 2) := by
        rw [ht]; ring
      have hsq : (((2 ^ (2 * j) : Nat) : Int)) ∣ (((p : Int) * (x : Int) - 1) ^ 2) := by
        have h2 : ((2 ^ (2 * j) : Nat) : Int) = ((2 ^ j : Nat) : Int) ^ 2 := by
          push_cast
          rw [two_mul, pow_add]
          ring
        rw [h2]
        exact pow_dvd_pow_of_dvd ih 2
      have hle1 : min (2 ^ (k + 1)) w ≤ 2 * j := by
        rw [hj]
        rcases le_or_lt (2 ^ k) w with h | h
        · rw [min_eq_left h, pow_succ]
          exact le_trans (min_le_left _ _) (by omega)
        · rw [min_eq_right h.le]
          exact le_trans (min_le_right _ _) (by omega)
      have hle2 : min (2 ^ (k + 1)) w ≤ w := min_le_right _ _
      have hdvd1 : ((2 ^ min (2 ^ (k + 1)) w : Nat) : Int) ∣ ((2 ^ (2 * j) : Nat) : Int) := by
        exact_mod_cast Int.natCast_dvd_natCast.mpr (pow_dvd_pow 2 hle1)
      have hdvd2 : ((2 ^ min (2 ^ (k + 1)) w : Nat) : Int) ∣ ((2 ^ w : Nat) : Int) := by
        exact_mod_cast Int.natCast_dvd_natCast.mpr (pow_dvd_pow 2 hle2)
      have hsplit : (p : Int) * (monty_inverse_aux p (2 ^ w) (k + 1) : Int) - 1 =
          (p : Int) * ((monty_inverse_aux p (2 ^ w) (k + 1) : Int) - t) +
            (((p : Int) * t - 1)) := by ring
      rw [hsplit, halg]
      exact dvd_add (Dvd.dvd.mul_left (hdvd2.trans hdvd_adjust) _)
        (dvd_neg.mpr (hdvd1.trans hsq))

theorem p_dash_spec (P : Montgomery_Params) (hodd : Odd P.p) (hw : 0 < P.w) :
    2 ^ P.w ∣ P.p * P.p_dash + 1 := by
  set i := monty_inverse P.p P.w with hi
  have h2w : 1 < 2 ^ P.w := by
    have h : 2 ^ 1 ≤ 2 ^ P.w := Nat.pow_le_pow_right (by omega) hw
    omega
  have hilt : i < 2 ^ P.w := monty_inverse_aux_lt P.p (2 ^ P.w) h2w P.w
  have hinv : ((2 : Int) ^ P.w) ∣ (P.p : Int) * (i : Int) - 1 := by
    have h := monty_inverse_aux_invariant P.p P.w hodd hw P.w
    rw [min_eq_right (Nat.le_of_lt (Nat.lt_two_pow P.w))] at h
    exact_mod_cast h
  have key : ∀ t : Int, ((2 : Int) ^ P.w) ∣ t % ((2 : Int) ^ P.w) - t := by
    intro t
    refine ⟨-(t / ((2 : Int) ^ P.w)), ?_⟩
    have h := Int.ediv_add_emod t ((2 : Int) ^ P.w)
    linarith
  have hpd : (P.p_dash : Int) = ((2 : Int) ^ P.w - (i : Int)) % ((2 : Int) ^ P.w) := by
    show (((2 ^ P.w - i) % 2 ^ P.w : Nat) : Int) = _
    push_cast [Nat.cast_sub hilt.le]
    ring_nf
  rw [← Int.natCast_dvd_natCast]
  push_cast
  have hsplit : (P.p : Int) * (P.p_dash : Int) + 1 =
      (P.p : Int) * ((P.p_dash : Int) - ((2 : Int) ^ P.w - (i : Int))) +
        (2 : Int) ^ P.w * (P.p : Int) - ((P.p : Int) * (i : Int) - 1) := by ring
  rw [hsplit]
  refine dvd_sub (dvd_add (Dvd.dvd.mul_left ?_ _) (dvd_mul_right _ _)) hinv
  rw [hpd]
  exact key _

/-! ## Correctness of REDC -/

theorem redc_step_bound (w p pd A x : Nat) (_hp : 0 < p) (hx : x < A * 2 ^ w * p + p) :
    redc_step w p pd x < A * p + p := by
  unfold redc_step
  have hn : 0 < 2 ^ w := Nat.pos_pow_of_pos _ (by omega)
  have hm : (x % 2 ^ w * pd) % 2 ^ w < 2 ^ w := Nat.mod_lt _ hn
  apply Nat.div_lt_of_lt_mul
  have h1 : (x % 2 ^ w * pd) % 2 ^ w * p ≤ (2 ^ w - 1) * p :=
    Nat.mul_le_mul_right _ (by omega)
  have hdist : 2 ^ w * (A * p + p) = A * 2 ^ w * p + 2 ^ w * p := by ring
  have hple : p ≤ 2 ^ w * p := Nat.le_mul_of_pos_left _ hn
  have hsub : (2 ^ w - 1) * p = 2 ^ w * p - p := by rw [Nat.sub_mul, one_mul]
  omega

theorem redc_step_dvd (w p pd x : Nat) (hpd : 2 ^ w ∣ p * pd + 1) :
    2 ^ w ∣ x + (x % 2 ^ w * pd) % 2 ^ w * p := by
  have h1 : (x % 2 ^ w * pd) % 2 ^ w * p ≡ x * pd * p [MOD 2 ^ w] := by
    calc (x % 2 ^ w * pd) % 2 ^ w * p
        ≡ x % 2 ^ w * pd * p [MOD 2 ^ w] := (Nat.mod_modEq _ _).mul_right p
      _ ≡ x * pd * p [MOD 2 ^ w] := ((Nat.mod_modEq x (2 ^ w)).mul_right pd).mul_right p
  have h2 : x + (x % 2 ^ w * pd) % 2 ^ w * p ≡ x * (p * pd + 1) [MOD 2 ^ w] := by
    calc x + (x % 2 ^ w * pd) % 2 ^ w * p
        ≡ x + x * pd * p [MOD 2 ^ w] := (Nat.ModEq.refl x).add h1
      _ = x * (p * pd + 1) := by ring
  have h4 : x * (p * pd + 1) ≡ 0 [MOD 2 ^ w] :=
    Nat.modEq_zero_iff_dvd.mpr (Dvd.dvd.mul_left hpd x)
  exact Nat.modEq_zero_iff_dvd.mp (h2.trans h4)

theorem redc_step_congr (w p pd x : Nat) (hpd : 2 ^ w ∣ p * pd + 1) :
    redc_step w p pd x * 2 ^ w ≡ x [MOD p] := by
  have hmul : redc_step w p pd x * 2 ^ w = x + (x % 2 ^ w * pd) % 2 ^ w * p :=
    Nat.div_mul_cancel (redc_step_dvd w p pd x hpd)
  rw [hmul]
  exact (Nat.add_mul_mod_self_right x _ p : _ % p = x % p)

theorem redc_loop_spec (w p pd : Nat) (hp : 0 < p) (hpd : 2 ^ w ∣ p * pd + 1) :
    ∀ k x, x < 2 ^ (w * k) * p + p →
      redc_loop w p pd k x < p + p ∧ redc_loop w p pd k x * 2 ^ (w * k) ≡ x [MOD p] := by
  intro k
  induction k with
  | zero =>
      intro x hx
      simp only [redc_loop, Nat.mul_zero, pow_zero, one_mul, mul_one] at hx ⊢
      exact ⟨by omega, Nat.ModEq.refl x⟩
  | succ k ih =>
      intro x hx
      have hstep : redc_loop w p pd (k + 1) x = redc_loop w p pd k (redc_step w p pd x) := rfl
      have hexp : 2 ^ (w * (k + 1)) = 2 ^ (w * k) * 2 ^ w := by rw [Nat.mul_succ, pow_add]
      have hxbound : x < 2 ^ (w * k) * 2 ^ w * p + p := by rw [← hexp]; exact hx
      have hb := redc_step_bound w p pd (2 ^ (w * k)) x hp hxbound
      obtain ⟨ih1, ih2⟩ := ih (redc_step w p pd x) hb
      refine ⟨by rwa [hstep], ?_⟩
      rw [hstep]
      calc redc_loop w p pd k (redc_step w p pd x) * 2 ^ (w * (k + 1))
          = redc_loop w p pd k (redc_step w p pd x) * 2 ^ (w * k) * 2 ^ w := by
            rw [hexp]; ring
        _ ≡ redc_step w p pd x * 2 ^ w [MOD p] := ih2.mul_right _
        _ ≡ x [MOD p] := redc_step_congr w p pd x hpd

namespace Montgomery_Params

theorem redc_spec (P : Montgomery_Params) (hodd : Odd P.p) (hp : 0 < P.p) (hw : 0 < P.w)
    (x : Nat) (hx : x < P.R * P.p) :
    P.redc x < P.p ∧ P.redc x * P.R ≡ x [MOD P.p] := by
  have hpd := p_dash_spec P hodd hw
  have hR : P.R = 2 ^ (P.w * P.p_words) := by rw [R, Nat.mul_comm]
  have hxb : x < 2 ^ (P.w * P.p_words) * P.p + P.p := by rw [← hR]; omega
  obtain ⟨h1, h2⟩ := redc_loop_spec P.w P.p P.p_dash hp hpd P.p_words x hxb
  set t := redc_loop P.w P.p P.p_dash P.p_words x with ht
  have h2' : t * P.R ≡ x [MOD P.p] := by rw [hR]; exact h2
  have hredc : P.redc x = if P.p ≤ t then t - P.p else t := rfl
  rw [hredc]
  split_ifs with hle
  · refine ⟨by omega, ?_⟩
    calc (t - P.p) * P.R
        ≡ (t - P.p) * P.R + P.p * P.R [MOD P.p] :=
          Nat.ModEq.symm (Nat.add_mul_mod_self_left _ _ _ : _ % P.p = _ % P.p)
      _ = t * P.R := by rw [← add_mul, Nat.sub_add_cancel hle]
      _ ≡ x [MOD P.p] := h2'
  · exact ⟨by omega, h2'⟩

theorem coprime_R (P : Montgomery_Params) (hodd : Odd P.p) : Nat.Coprime P.R P.p :=
  Nat.Coprime.pow_left _ (Nat.coprime_two_left.mpr hodd)

theorem cancel_R (P : Montgomery_Params) (hodd : Odd P.p) {a b : Nat}
    (h : a * P.R ≡ b * P.R [MOD P.p]) : a ≡ b [MOD P.p] :=
  Nat.ModEq.cancel_right_of_coprime ((Nat.gcd_comm P.p P.R).trans (coprime_R P hodd)) h

theorem mul_lt_R_mul (P : Montgomery_Params) (hw : 0 < P.w) {a b : Nat}
    (ha : a < P.p) (hb : b < P.p) : a * b < P.R * P.p := by
  have h1 : a * b < P.p * P.p := mul_lt_mul'' ha hb (Nat.zero_le _) (Nat.zero_le _)
  exact h1.trans_le (Nat.mul_le_mul_right _ (P.p_lt_R hw).le)

end Montgomery_Params

namespace Montgomery_Int

/-- Domain entry produces a canonical representation congruent to `x * R`. -/
theorem enter_v_spec (P : Montgomery_Params) (hodd : Odd P.p) (hp : 1 < P.p) (hw : 0 < P.w)
    (x : Nat) (hx : x < P.p) :
    (enter P x).v < P.p ∧ (enter P x).v ≡ x * P.R [MOD P.p] := by
  have hlt : x * P.R2 < P.R * P.p :=
    Montgomery_Params.mul_lt_R_mul P hw hx (P.R2_lt (by omega))
  have hs := P.redc_spec hodd (by omega) hw (x * P.R2) hlt
  have hv : (enter P x).v = P.redc (x * P.R2) := rfl
  refine ⟨by rw [hv]; exact hs.1, ?_⟩
  rw [hv]
  apply Montgomery_Params.cancel_R P hodd
  calc P.redc (x * P.R2) * P.R
      ≡ x * P.R2 [MOD P.p] := hs.2
    _ ≡ x * P.R ^ 2 [MOD P.p] := (Nat.mod_modEq _ _).mul_left x
    _ = x * P.R * P.R := by ring

/-- Exiting the domain from a canonical representation congruent to `y * R`
returns `y mod p`. -/
theorem value_spec (P : Montgomery_Params) (hodd : Odd P.p) (hp : 1 < P.p) (hw : 0 < P.w)
    (v y : Nat) (hv : v < P.p) (h : v ≡ y * P.R [MOD P.p]) :
    Montgomery_Int.value ⟨P, v⟩ = y % P.p := by
  have hlt : v < P.R * P.p := lt_of_lt_of_le hv (Nat.le_mul_of_pos_left _ P.R_pos)
  have hs := P.redc_spec hodd (by omega) hw v hlt
  have heq : P.redc v ≡ y [MOD P.p] :=
    Montgomery_Params.cancel_R P hodd (hs.2.trans h)
  have hval : Montgomery_Int.value ⟨P, v⟩ = P.redc v := rfl
  rw [hval]
  have h1 : P.redc v % P.p = y % P.p := heq
  rw [← h1, Nat.mod_eq_of_lt hs.1]

end Montgomery_Int

/-- A concrete parameter instance: modulus `97`, 4-bit words, identity `0`. -/
def P97 : Montgomery_Params := ⟨0, 97, 4⟩

/-- A separately constructed parameter instance: modulus `101`, identity `1`. -/
def P101 : Montgomery_Params := ⟨1, 101, 4⟩

/-! ## The claims -/

/-- Multiplying two entered values in the domain and exiting returns the
modular product (shared between several claims). -/
theorem mul_enter_value_aux (P : Montgomery_Params) (hodd : Odd P.p) (hp : 1 < P.p)
    (hw : 0 < P.w) (x y : Nat) (hx : x < P.p) (hy : y < P.p) :
    (Montgomery_Int.mul (Montgomery_Int.enter P x) (Montgomery_Int.enter P y)).map
      Montgomery_Int.value = Except.ok (x * y % P.p) := by
  obtain ⟨hxa, hxc⟩ := Montgomery_Int.enter_v_spec P hodd hp hw x hx
  obtain ⟨hya, hyc⟩ := Montgomery_Int.enter_v_spec P hodd hp hw y hy
  have hmul : Montgomery_Int.mul (Montgomery_Int.enter P x) (Montgomery_Int.enter P y) =
      Except.ok ⟨P, P.mul (Montgomery_Int.enter P x).v (Montgomery_Int.enter P y).v⟩ := by
    unfold Montgomery_Int.mul
    have hpx : (Montgomery_Int.enter P x).params = P := rfl
    have hpy : (Montgomery_Int.enter P y).params = P := rfl
    rw [hpx, hpy, if_pos rfl]
  rw [hmul]
  have hlt : (Montgomery_Int.enter P x).v * (Montgomery_Int.enter P y).v < P.R * P.p :=
    Montgomery_Params.mul_lt_R_mul P hw hxa hya
  have hs := P.redc_spec hodd (by omega) hw _ hlt
  have hcongr : P.mul (Montgomery_Int.enter P x).v (Montgomery_Int.enter P y).v ≡
      x * y * P.R [MOD P.p] := by
    apply Montgomery_Params.cancel_R P hodd
    show P.redc ((Montgomery_Int.enter P x).v * (Montgomery_Int.enter P y).v) * P.R ≡
      x * y * P.R * P.R [MOD P.p]
    calc P.redc ((Montgomery_Int.enter P x).v * (Montgomery_Int.enter P y).v) * P.R
        ≡ (Montgomery_Int.enter P x).v * (Montgomery_Int.enter P y).v [MOD P.p] := hs.2
      _ ≡ x * P.R * (y * P.R) [MOD P.p] := hxc.mul hyc
      _ = x * y * P.R * P.R := by ring
  have hv : (⟨P, P.mul (Montgomery_Int.enter P x).v (Montgomery_Int.enter P y).v⟩ :
      Montgomery_Int).value = x * y % P.p :=
    Montgomery_Int.value_spec P hodd hp hw _ _ hs.1 hcongr
  simpa [Except.map] using hv

/-- C1: for every odd modulus `p > 1` and all `x, y` in `[0, p)`, entering `x`
and `y` into the Montgomery domain, multiplying the two Montgomery values with
`operator*`, and exiting the domain with `value()` yields exactly
`(x * y) mod p`. -/
theorem mul_in_domain_value (P : Montgomery_Params) (hodd : Odd P.p) (hp : 1 < P.p)
    (hw : 0 < P.w) (x y : Nat) (hx : x < P.p) (hy : y < P.p) :
    (Montgomery_Int.mul (Montgomery_Int.enter P x) (Montgomery_Int.enter P y)).map
      Montgomery_Int.value = Except.ok (x * y % P.p) :=
  mul_enter_value_aux P hodd hp hw x y hx hy

/-- Witness for C1 at `p = 97`: `value(enter(5) * enter(6)) = 30`. -/
theorem mul_in_domain_value_witness :
    (Montgomery_Int.mul (Montgomery_Int.enter P97 5) (Montgomery_Int.enter P97 6)).map
      Montgomery_Int.value = Except.ok 30 := by
  have h := mul_in_domain_value P97 (by decide) (by decide) (by decide) 5 6
    (by decide) (by decide)
  simpa using h

/-- C2: for every `x` in `[0, p)`, constructing a Montgomery value from `x`
with domain entry (`redc_needed = true`) and then calling `value()` returns
`x`. -/
theorem enter_value_roundtrip (P : Montgomery_Params) (hodd : Odd P.p) (hp : 1 < P.p)
    (hw : 0 < P.w) (x : Nat) (hx : x < P.p) :
    (Montgomery_Int.make P x true).map Montgomery_Int.value = Except.ok x := by
  have hmk : Montgomery_Int.make P x true = Except.ok (Montgomery_Int.enter P x) := rfl
  rw [hmk]
  obtain ⟨h1, h2⟩ := Montgomery_Int.enter_v_spec P hodd hp hw x hx
  have hv : (Montgomery_Int.enter P x).value = x % P.p :=
    Montgomery_Int.value_spec P hodd hp hw (Montgomery_Int.enter P x).v x h1 h2
  simp only [Except.map]
  rw [hv, Nat.mod_eq_of_lt hx]

/-- Witness for C2 at `p = 97`: `value(enter(5)) = 5`. -/
theorem enter_value_roundtrip_witness :
    (Montgomery_Int.make P97 5 true).map Montgomery_Int.value = Except.ok 5 :=
  enter_value_roundtrip P97 (by decide) (by decide) (by decide) 5 (by decide)

/-- C3: for every input `x` with `0 ≤ x < R * p` (where
`R = 2^(p_words * word_bits)`), `Montgomery_Params::redc x` returns
`(x * R⁻¹) mod p`, and the result satisfies `0 ≤ result < p`. -/
theorem redc_montgomery_reduction (P : Montgomery_Params) (hodd : Odd P.p) (hp : 1 < P.p)
    (hw : 0 < P.w) (x : Nat) (hx : x < P.R * P.p) :
    P.redc x < P.p ∧
      (P.redc x : ZMod P.p) = (x : ZMod P.p) * ((P.R : Nat) : ZMod P.p)⁻¹ := by
  obtain ⟨h1, h2⟩ := P.redc_spec hodd (by omega) hw x hx
  refine ⟨h1, ?_⟩
  have hcast : ((P.redc x * P.R : Nat) : ZMod P.p) = ((x : Nat) : ZMod P.p) :=
    (ZMod.natCast_eq_natCast_iff _ _ _).mpr h2
  push_cast at hcast
  have hR1 : ((P.R : Nat) : ZMod P.p) * ((P.R : Nat) : ZMod P.p)⁻¹ = 1 :=
    ZMod.coe_mul_inv_eq_one P.R (P.coprime_R hodd)
  calc (P.redc x : ZMod P.p)
      = (P.redc x : ZMod P.p) * (((P.R : Nat) : ZMod P.p) * ((P.R : Nat) : ZMod P.p)⁻¹) := by
        rw [hR1, mul_one]
    _ = (P.redc x : ZMod P.p) * ((P.R : Nat) : ZMod P.p) * ((P.R : Nat) : ZMod P.p)⁻¹ := by
        ring
    _ = (x : ZMod P.p) * ((P.R : Nat) : ZMod P.p)⁻¹ := by rw [hcast]

/-- Witness for C3 at `p = 97`, `x = 305`. -/
theorem redc_montgomery_reduction_witness :
    P97.redc 305 < P97.p ∧
      (P97.redc 305 : ZMod P97.p) = (305 : ZMod P97.p) * ((P97.R : Nat) : ZMod P97.p)⁻¹ := by
  have h := redc_montgomery_reduction P97 (by decide) (by decide) (by decide) 305 (by decide)
  simpa using h

/-- C4: for every odd modulus accepted at construction, the precomputed
single-word constant satisfies `(p mod 2^word_bits) * p_dash ≡ -1 (mod
2^word_bits)` exactly. -/
theorem p_dash_word_inverse (P : Montgomery_Params) (hodd : Odd P.p) (hw : 0 < P.w) :
    ((P.p % 2 ^ P.w : Nat) : Int) * (P.p_dash : Int) ≡ -1 [ZMOD ((2 : Int) ^ P.w)] := by
  have h := p_dash_spec P hodd hw
  have hdvd : ((2 : Int) ^ P.w) ∣ ((P.p * P.p_dash + 1 : Nat) : Int) := by exact_mod_cast h
  push_cast at hdvd
  rw [Int.modEq_iff_dvd]
  have hmod : ((P.p % 2 ^ P.w : Nat) : Int) = (P.p : Int) % ((2 : Int) ^ P.w) := by
    push_cast
    ring
  have hsub : ((2 : Int) ^ P.w) ∣ (P.p : Int) - (P.p : Int) % ((2 : Int) ^ P.w) := by
    refine ⟨(P.p : Int) / ((2 : Int) ^ P.w), ?_⟩
    have h2 := Int.ediv_add_emod (P.p : Int) ((2 : Int) ^ P.w)
    linarith
  have hsplit : (-1 : Int) - ((P.p % 2 ^ P.w : Nat) : Int) * (P.p_dash : Int) =
      -((P.p : Int) * (P.p_dash : Int) + 1) +
        ((P.p : Int) - (P.p : Int) % ((2 : Int) ^ P.w)) * (P.p_dash : Int) := by
    rw [hmod]
    ring
  rw [hsplit]
  exact dvd_add (dvd_neg.mpr hdvd) (Dvd.dvd.mul_right hsub _)

/-- Witness for C4 at `p = 97`, `w = 4`. -/
theorem p_dash_word_inverse_witness :
    ((P97.p % 2 ^ P97.w : Nat) : Int) * (P97.p_dash : Int) ≡ -1 [ZMOD ((2 : Int) ^ P97.w)] :=
  p_dash_word_inverse P97 (by decide) (by decide)

/-- A value below `p` is a canonical representation (it also fits in exactly
`p_words` words since `p < R`). -/
theorem canonical_of_lt (P : Montgomery_Params) (hw : 0 < P.w) (v : Nat) (h : v < P.p) :
    (⟨P, v⟩ : Montgomery_Int).canonical :=
  ⟨h, h.trans (P.p_lt_R hw)⟩

/-- C5: after every public operation on a Montgomery value (construction with
domain entry, `+`, `-`, `*`, `square`, `multiplicative_inverse`,
`additive_inverse`, `mul_by_2/3/4/8`, `fix_size`) completes, the stored
representation `v` satisfies `0 ≤ v < p` and fits in exactly `p_words`
zero-padded words (`v < R`). -/
theorem canonical_after_ops (P : Montgomery_Params) (hodd : Odd P.p) (hp : 1 < P.p)
    (hw : 0 < P.w) :
    (∀ x, x < P.p → (Montgomery_Int.enter P x).canonical) ∧
    (∀ v₁ v₂ : Nat, v₁ < P.p → v₂ < P.p →
      (∀ c, Montgomery_Int.add ⟨P, v₁⟩ ⟨P, v₂⟩ = Except.ok c → c.canonical) ∧
      (∀ c, Montgomery_Int.sub ⟨P, v₁⟩ ⟨P, v₂⟩ = Except.ok c → c.canonical) ∧
      (∀ c, Montgomery_Int.mul ⟨P, v₁⟩ ⟨P, v₂⟩ = Except.ok c → c.canonical)) ∧
    (∀ v : Nat, v < P.p →
      (Montgomery_Int.square ⟨P, v⟩).canonical ∧
      (∀ c, Montgomery_Int.multiplicative_inverse ⟨P, v⟩ = Except.ok c → c.canonical) ∧
      (Montgomery_Int.additive_inverse ⟨P, v⟩).canonical ∧
      (Montgomery_Int.mul_by_2 ⟨P, v⟩).canonical ∧
      (Montgomery_Int.mul_by_3 ⟨P, v⟩).canonical ∧
      (Montgomery_Int.mul_by_4 ⟨P, v⟩).canonical ∧
      (Montgomery_Int.mul_by_8 ⟨P, v⟩).canonical ∧
      (Montgomery_Int.fix_size ⟨P, v⟩).canonical) := by
  have hp0 : 0 < P.p := by omega
  refine ⟨?_, ?_, ?_⟩
  · intro x hx
    exact canonical_of_lt P hw _ (Montgomery_Int.enter_v_spec P hodd hp hw x hx).1
  · intro v₁ v₂ h1 h2
    refine ⟨?_, ?_, ?_⟩
    · intro c hc
      have heq : Montgomery_Int.add ⟨P, v₁⟩ ⟨P, v₂⟩ =
          Except.ok ⟨P, if P.p ≤ v₁ + v₂ then v₁ + v₂ - P.p else v₁ + v₂⟩ := by
        simp [Montgomery_Int.add]
      rw [heq] at hc
      obtain rfl := Except.ok.inj hc
      exact canonical_of_lt P hw _ (by split_ifs <;> omega)
    · intro c hc
      have heq : Montgomery_Int.sub ⟨P, v₁⟩ ⟨P, v₂⟩ =
          Except.ok ⟨P, if v₂ ≤ v₁ then v₁ - v₂ else v₁ + P.p - v₂⟩ := by
        simp [Montgomery_Int.sub]
      rw [heq] at hc
      obtain rfl := Except.ok.inj hc
      exact canonical_of_lt P hw _ (by split_ifs <;> omega)
    · intro c hc
      have heq : Montgomery_Int.mul ⟨P, v₁⟩ ⟨P, v₂⟩ = Except.ok ⟨P, P.mul v₁ v₂⟩ := by
        simp [Montgomery_Int.mul]
      rw [heq] at hc
      obtain rfl := Except.ok.inj hc
      have hlt : v₁ * v₂ < P.R * P.p := Montgomery_Params.mul_lt_R_mul P hw h1 h2
      exact canonical_of_lt P hw _ (P.redc_spec hodd hp0 hw _ hlt).1
  · intro v hv
    refine ⟨?_, ?_, ?_, ?_, ?_, ?_, ?_, ?_⟩
    · have hlt : v * v < P.R * P.p := Montgomery_Params.mul_lt_R_mul P hw hv hv
      exact canonical_of_lt P hw _ (P.redc_spec hodd hp0 hw _ hlt).1
    · intro c hc
      cases hfind : mod_inverse P.p (P.redc v) with
      | none =>
          rw [show Montgomery_Int.multiplicative_inverse ⟨P, v⟩ =
            Except.error MontyError.NotInvertible from by
              simp [Montgomery_Int.multiplicative_inverse, Montgomery_Params.inv_mod_p,
                hfind, Except.map]] at hc
          cases hc
      | some y =>
          rw [show Montgomery_Int.multiplicative_inverse ⟨P, v⟩ =
            Except.ok ⟨P, P.redc (y * P.R2)⟩ from by
              simp [Montgomery_Int.multiplicative_inverse, Montgomery_Params.inv_mod_p,
                hfind, Except.map]] at hc
          obtain rfl := Except.ok.inj hc
          have hy : y < P.p := by
            have hmem := List.mem_of_find?_eq_some hfind
            exact List.mem_range.mp hmem
          have hlt : y * P.R2 < P.R * P.p :=
            Montgomery_Params.mul_lt_R_mul P hw hy (P.R2_lt hp0)
          exact canonical_of_lt P hw _ (P.redc_spec hodd hp0 hw _ hlt).1
    · exact canonical_of_lt P hw _ (by simp only [Montgomery_Int.additive_inverse]; split_ifs <;> omega)
    · exact canonical_of_lt P hw _ (Nat.mod_lt _ hp0)
    · exact canonical_of_lt P hw _ (Nat.mod_lt _ hp0)
    · exact canonical_of_lt P hw _ (Nat.mod_lt _ hp0)
    · exact canonical_of_lt P hw _ (Nat.mod_lt _ hp0)
    · exact canonical_of_lt P hw _ hv

/-- Witness for C5 at `p = 97`: domain entry of `5` and its small multiple are
canonical. -/
theorem canonical_after_ops_witness :
    (Montgomery_Int.enter P97 5).canonical ∧
    (Montgomery_Int.mul_by_3 ⟨P97, 19⟩).canonical ∧
    (Montgomery_Int.additive_inverse ⟨P97, 19⟩).canonical := by
  have h := canonical_after_ops P97 (by decide) (by decide) (by decide)
  exact ⟨h.1 5 (by decide), (h.2.2 19 (by decide)).2.2.2.2.1,
    (h.2.2 19 (by decide)).2.2.1⟩

/-- C6: for every pair of Montgomery values whose params references are to
different `Montgomery_Params` instances, every binary operator applied to the
pair (in particular `mul`) fails with `MismatchedModulus` rather than
producing a result. -/
theorem mismatched_modulus_error (a b : Montgomery_Int) (h : a.params ≠ b.params) :
    Montgomery_Int.add a b = Except.error MontyError.MismatchedModulus ∧
    Montgomery_Int.sub a b = Except.error MontyError.MismatchedModulus ∧
    Montgomery_Int.mul a b = Except.error MontyError.MismatchedModulus := by
  refine ⟨?_, ?_, ?_⟩ <;>
    simp [Montgomery_Int.add, Montgomery_Int.sub, Montgomery_Int.mul, h]

/-- Witness for C6: a value over `p = 97` combined with one over a separately
constructed `p = 101` instance errors out on `+`, `-` and `*`. -/
theorem mismatched_modulus_error_witness :
    Montgomery_Int.add (Montgomery_Int.enter P97 5) (Montgomery_Int.enter P101 7) =
      Except.error MontyError.MismatchedModulus ∧
    Montgomery_Int.sub (Montgomery_Int.enter P97 5) (Montgomery_Int.enter P101 7) =
      Except.error MontyError.MismatchedModulus ∧
    Montgomery_Int.mul (Montgomery_Int.enter P97 5) (Montgomery_Int.enter P101 7) =
      Except.error MontyError.MismatchedModulus :=
  mismatched_modulus_error _ _ (by decide)

/-- When `gcd x p = 1` the inverse search succeeds and returns a modular
inverse of `x`. -/
theorem mod_inverse_exists (p x : Nat) (hp : 1 < p) (h : Nat.gcd x p = 1) :
    ∃ y, mod_inverse p x = some y ∧ y < p ∧ x * y % p = 1 := by
  haveI : NeZero p := ⟨by omega⟩
  set u : ZMod p := (x : ZMod p)⁻¹ with hu
  have huval : ((u.val : Nat) : ZMod p) = u := ZMod.natCast_rightInverse u
  have hone : (x : ZMod p) * u = 1 := ZMod.coe_mul_inv_eq_one x h
  have hxy : x * u.val % p = 1 := by
    have hcast : ((x * u.val : Nat) : ZMod p) = ((1 : Nat) : ZMod p) := by
      push_cast
      rw [huval, hone]
    have hmeq := (ZMod.natCast_eq_natCast_iff _ _ _).mp hcast
    have h1 : x * u.val % p = 1 % p := hmeq
    rwa [Nat.mod_eq_of_lt hp] at h1
  have hmem : u.val ∈ List.range p := List.mem_range.mpr (ZMod.val_lt u)
  have hsome : (mod_inverse p x).isSome := by
    rw [mod_inverse, List.find?_isSome]
    exact ⟨u.val, hmem, by simpa using hxy⟩
  obtain ⟨y, hy⟩ := Option.isSome_iff_exists.mp hsome
  refine ⟨y, hy, List.mem_range.mp (List.mem_of_find?_eq_some hy), ?_⟩
  have := List.find?_some hy
  simpa using this

/-- When `gcd x p ≠ 1` there is no modular inverse and the search fails. -/
theorem mod_inverse_none (p x : Nat) (h : Nat.gcd x p ≠ 1) :
    mod_inverse p x = none := by
  rw [mod_inverse, List.find?_eq_none]
  intro y hy
  simp only [beq_iff_eq]
  intro hxy
  apply h
  have hdvd1 : Nat.gcd x p ∣ x * y := (Nat.gcd_dvd_left x p).mul_right y
  have hdvd2 : Nat.gcd x p ∣ p * (x * y / p) := (Nat.gcd_dvd_right x p).mul_right _
  have hsplit := Nat.div_add_mod (x * y) p
  have hone : x * y - p * (x * y / p) = 1 := by omega
  have : Nat.gcd x p ∣ 1 := hone ▸ Nat.dvd_sub' hdvd1 hdvd2
  exact Nat.dvd_one.mp this

/-- C7: for every `x` in `[0, p)` with `gcd(x, p) = 1`,
`multiplicative_inverse` on `enter x` returns the Montgomery form of the
modular inverse of `x`, so multiplying and exiting the domain yields `1`;
when `gcd(x, p) ≠ 1` (e.g. `x = 0`) the inverse request fails with
`NotInvertible`. -/
theorem multiplicative_inverse_spec (P : Montgomery_Params) (hodd : Odd P.p)
    (hp : 1 < P.p) (hw : 0 < P.w) (x : Nat) (hx : x < P.p) :
    (Nat.gcd x P.p = 1 →
      ∃ b, (Montgomery_Int.enter P x).multiplicative_inverse = Except.ok b ∧
        (Montgomery_Int.mul (Montgomery_Int.enter P x) b).map Montgomery_Int.value =
          Except.ok 1) ∧
    (Nat.gcd x P.p ≠ 1 →
      (Montgomery_Int.enter P x).multiplicative_inverse =
        Except.error MontyError.NotInvertible) := by
  obtain ⟨h1, h2⟩ := Montgomery_Int.enter_v_spec P hodd hp hw x hx
  have hlog : P.redc (Montgomery_Int.enter P x).v = x := by
    have hv : Montgomery_Int.value ⟨P, (Montgomery_Int.enter P x).v⟩ = x % P.p :=
      Montgomery_Int.value_spec P hodd hp hw (Montgomery_Int.enter P x).v x h1 h2
    rw [Nat.mod_eq_of_lt hx] at hv
    exact hv
  constructor
  · intro hgcd
    obtain ⟨y, hfind, hylt, hxy⟩ := mod_inverse_exists P.p x hp hgcd
    have hinv : (Montgomery_Int.enter P x).multiplicative_inverse =
        Except.ok (Montgomery_Int.enter P y) := by
      show ((Montgomery_Int.enter P x).params.inv_mod_p
        (Montgomery_Int.enter P x).v).map _ = _
      have hP : (Montgomery_Int.enter P x).params = P := rfl
      rw [hP]
      unfold Montgomery_Params.inv_mod_p
      rw [hlog, hfind]
      rfl
    refine ⟨Montgomery_Int.enter P y, hinv, ?_⟩
    rw [mul_enter_value_aux P hodd hp hw x y hx hylt, hxy]
  · intro hgcd
    have hnone := mod_inverse_none P.p x hgcd
    show ((Montgomery_Int.enter P x).params.inv_mod_p
      (Montgomery_Int.enter P x).v).map _ = _
    have hP : (Montgomery_Int.enter P x).params = P := rfl
    rw [hP]
    unfold Montgomery_Params.inv_mod_p
    rw [hlog, hnone]
    rfl

/-- Witness for C7 at `p = 97`: inverting `enter 5` and multiplying gives `1`;
inverting `enter 0` fails with `NotInvertible`. -/
theorem multiplicative_inverse_spec_witness :
    (∃ b, (Montgomery_Int.enter P97 5).multiplicative_inverse = Except.ok b ∧
      (Montgomery_Int.mul (Montgomery_Int.enter P97 5) b).map Montgomery_Int.value =
        Except.ok 1) ∧
    (Montgomery_Int.enter P97 0).multiplicative_inverse =
      Except.error MontyError.NotInvertible :=
  ⟨(multiplicative_inverse_spec P97 (by decide) (by decide) (by decide) 5
      (by decide)).1 (by decide),
   (multiplicative_inverse_spec P97 (by decide) (by decide) (by decide) 0
      (by decide)).2 (by decide)⟩

/-- The small-multiple fast path, stated on the raw representation. -/
theorem mul_by_const_value (P : Montgomery_Params) (hodd : Odd P.p) (hp : 1 < P.p)
    (hw : 0 < P.w) (k x : Nat) (hx : x < P.p) :
    (⟨P, k * (Montgomery_Int.enter P x).v % P.p⟩ : Montgomery_Int).value = k * x % P.p := by
  obtain ⟨h1, h2⟩ := Montgomery_Int.enter_v_spec P hodd hp hw x hx
  have hvlt : k * (Montgomery_Int.enter P x).v % P.p < P.p := Nat.mod_lt _ (by omega)
  have hcongr : k * (Montgomery_Int.enter P x).v % P.p ≡ k * x * P.R [MOD P.p] := by
    calc k * (Montgomery_Int.enter P x).v % P.p
        ≡ k * (Montgomery_Int.enter P x).v [MOD P.p] := Nat.mod_modEq _ _
      _ ≡ k * (x * P.R) [MOD P.p] := h2.mul_left k
      _ = k * x * P.R := by ring
  exact Montgomery_Int.value_spec P hodd hp hw _ _ hvlt hcongr

/-- C8: for every `x` in `[0, p)` and every `k` in `{2, 3, 4, 8}`, applying
the fast path `mul_by_k` to `enter x` and exiting the domain yields
`(k * x) mod p`, agreeing with a full Montgomery multiplication by the
constant `k`. -/
theorem mul_by_small_value (P : Montgomery_Params) (hodd : Odd P.p) (hp : 1 < P.p)
    (hw : 0 < P.w) (x : Nat) (hx : x < P.p) :
    (Montgomery_Int.mul_by_2 (Montgomery_Int.enter P x)).value = 2 * x % P.p ∧
    (Montgomery_Int.mul_by_3 (Montgomery_Int.enter P x)).value = 3 * x % P.p ∧
    (Montgomery_Int.mul_by_4 (Montgomery_Int.enter P x)).value = 4 * x % P.p ∧
    (Montgomery_Int.mul_by_8 (Montgomery_Int.enter P x)).value = 8 * x % P.p :=
  ⟨mul_by_const_value P hodd hp hw 2 x hx, mul_by_const_value P hodd hp hw 3 x hx,
   mul_by_const_value P hodd hp hw 4 x hx, mul_by_const_value P hodd hp hw 8 x hx⟩

/-- Witness for C8 at `p = 97`, `x = 40`. -/
theorem mul_by_small_value_witness :
    (Montgomery_Int.mul_by_2 (Montgomery_Int.enter P97 40)).value = 80 ∧
    (Montgomery_Int.mul_by_3 (Montgomery_Int.enter P97 40)).value = 23 ∧
    (Montgomery_Int.mul_by_4 (Montgomery_Int.enter P97 40)).value = 63 ∧
    (Montgomery_Int.mul_by_8 (Montgomery_Int.enter P97 40)).value = 29 := by
  have h := mul_by_small_value P97 (by decide) (by decide) (by decide) 40 (by decide)
  simpa using h

/-- C9: `is_zero` returns true exactly when the stored representation equals
`0`, and `is_one` returns true exactly when the stored representation equals
`R1`; consequently `is_one (enter 1)` and `is_zero (enter 0)` hold. -/
theorem is_one_is_zero_spec (P : Montgomery_Params) (hodd : Odd P.p) (hp : 1 < P.p)
    (hw : 0 < P.w) :
    (∀ a : Montgomery_Int,
      (a.is_zero = true ↔ a.v = 0) ∧ (a.is_one = true ↔ a.v = a.params.R1)) ∧
    Montgomery_Int.is_one (Montgomery_Int.enter P 1) = true ∧
    Montgomery_Int.is_zero (Montgomery_Int.enter P 0) = true := by
  refine ⟨fun a => ⟨by simp [Montgomery_Int.is_zero], by simp [Montgomery_Int.is_one]⟩,
    ?_, ?_⟩
  · obtain ⟨h1, h2⟩ := Montgomery_Int.enter_v_spec P hodd hp hw 1 hp
    have hR1lt : P.R1 < P.p := P.R1_lt (by omega)
    have hcongr : (Montgomery_Int.enter P 1).v ≡ P.R1 [MOD P.p] := by
      calc (Montgomery_Int.enter P 1).v
          ≡ 1 * P.R [MOD P.p] := h2
        _ = P.R := by ring
        _ ≡ P.R % P.p [MOD P.p] := (Nat.mod_modEq _ _).symm
        _ = P.R1 := rfl
    have hveq : (Montgomery_Int.enter P 1).v = P.R1 := by
      have h3 : (Montgomery_Int.enter P 1).v % P.p = P.R1 % P.p := hcongr
      rwa [Nat.mod_eq_of_lt h1, Nat.mod_eq_of_lt hR1lt] at h3
    simp [Montgomery_Int.is_one, hveq]
    rfl
  · obtain ⟨h1, h2⟩ := Montgomery_Int.enter_v_spec P hodd hp hw 0 (by omega)
    have hveq : (Montgomery_Int.enter P 0).v = 0 := by
      have h3 : (Montgomery_Int.enter P 0).v ≡ 0 [MOD P.p] := by simpa using h2
      have h4 : (Montgomery_Int.enter P 0).v % P.p = 0 % P.p := h3
      rw [Nat.mod_eq_of_lt h1] at h4
      simpa using h4
    simp [Montgomery_Int.is_zero, hveq]

/-- Witness for C9 at `p = 97`. -/
theorem is_one_is_zero_spec_witness :
    Montgomery_Int.is_one (Montgomery_Int.enter P97 1) = true ∧
    Montgomery_Int.is_zero (Montgomery_Int.enter P97 0) = true := by
  have h := is_one_is_zero_spec P97 (by decide) (by decide) (by decide)
  exact ⟨h.2.1, h.2.2⟩

/-- C10: equality and inequality on Montgomery values compare only the raw
stored representations — `eqb`/`neqb` are total Boolean comparisons of `m_v`
that never consult the params references (so mismatched parameters never
produce a `MismatchedModulus` failure) — and for canonicalized values over
the same parameters this decides equality of the logical values, the domain
map being injective. -/
theorem equality_compares_representations (P : Montgomery_Params) (hodd : Odd P.p)
    (hp : 1 < P.p) (hw : 0 < P.w) :
    (∀ a b : Montgomery_Int,
      (a.eqb b = true ↔ a.v = b.v) ∧ (a.neqb b = true ↔ a.v ≠ b.v)) ∧
    (∀ v₁ v₂ : Nat, v₁ < P.p → v₂ < P.p →
      (Montgomery_Int.eqb ⟨P, v₁⟩ ⟨P, v₂⟩ = true ↔
        Montgomery_Int.value ⟨P, v₁⟩ = Montgomery_Int.value ⟨P, v₂⟩)) := by
  constructor
  · intro a b
    exact ⟨by simp [Montgomery_Int.eqb], by simp [Montgomery_Int.neqb]⟩
  · intro v₁ v₂ h1 h2
    constructor
    · intro h
      have hv : v₁ = v₂ := by simpa [Montgomery_Int.eqb] using h
      rw [hv]
    · intro h
      have hlt1 : v₁ < P.R * P.p := lt_of_lt_of_le h1 (Nat.le_mul_of_pos_left _ P.R_pos)
      have hlt2 : v₂ < P.R * P.p := lt_of_lt_of_le h2 (Nat.le_mul_of_pos_left _ P.R_pos)
      obtain ⟨hr1, hc1⟩ := P.redc_spec hodd (by omega) hw v₁ hlt1
      obtain ⟨hr2, hc2⟩ := P.redc_spec hodd (by omega) hw v₂ hlt2
      have hval : P.redc v₁ = P.redc v₂ := h
      have hmeq : v₁ ≡ v₂ [MOD P.p] := by
        calc v₁ ≡ P.redc v₁ * P.R [MOD P.p] := hc1.symm
          _ = P.redc v₂ * P.R := by rw [hval]
          _ ≡ v₂ [MOD P.p] := hc2
      have hv : v₁ = v₂ := by
        have h4 : v₁ % P.p = v₂ % P.p := hmeq
        rwa [Nat.mod_eq_of_lt h1, Nat.mod_eq_of_lt h2] at h4
      simp [Montgomery_Int.eqb, hv]

/-- Witness for C10: comparison across distinct parameter instances is a
total Boolean on the representations; over `p = 97` it decides equality of
logical values. -/
theorem equality_compares_representations_witness :
    ((Montgomery_Int.eqb ⟨P97, 5⟩ ⟨P101, 5⟩ = true ↔
        (⟨P97, 5⟩ : Montgomery_Int).v = (⟨P101, 5⟩ : Montgomery_Int).v) ∧
      (Montgomery_Int.neqb ⟨P97, 5⟩ ⟨P101, 5⟩ = true ↔
        (⟨P97, 5⟩ : Montgomery_Int).v ≠ (⟨P101, 5⟩ : Montgomery_Int).v)) ∧
    (Montgomery_Int.eqb ⟨P97, 19⟩ ⟨P97, 23⟩ = true ↔
      Montgomery_Int.value ⟨P97, 19⟩ = Montgomery_Int.value ⟨P97, 23⟩) := by
  have h := equality_compares_representations P97 (by decide) (by decide) (by decide)
  exact ⟨h.1 ⟨P97, 5⟩ ⟨P101, 5⟩, h.2 19 23 (by decide) (by decide)⟩

end BotanMonty
